import Mathlib

/-!
Verification of the LookList gradient program (src/html/beauty_landing.cpp)
against its specification.

The source program builds a 600x400 vertical gradient image pixel by pixel
(lines 10-20), loads a font with an early return on failure (lines 26-30),
and runs an event loop.  The specification generalises the gradient loop
into an operation `generate(width, height, startColor, endColor)`.

Modelling conventions:
* sf::Uint8 channels are `Fin 256`; an sf::Color is a `Color` triple.
* The C++ float arithmetic (`float t = float(y) / 400.0f;` and the channel
  expression `24 + t * (255 - 24)`) is modelled by exact rational
  arithmetic on `ℚ`.  For every concrete evaluation used below the float
  computation is exact or far from a truncation boundary, so the rational
  model agrees with IEEE single precision there.
* `static_cast<sf::Uint8>` on a float truncates toward zero; it is
  modelled by `truncQ` followed by reduction into 8 bits (`toUint8`).
-/

/-- An RGB color with 8-bit unsigned channels, as sf::Color restricted to
the three channels the program sets (alpha is never touched). -/
@[ext]
structure Color where
  red : Fin 256
  green : Fin 256
  blue : Fin 256
deriving DecidableEq, Repr

/-- Truncation toward zero of a rational number, the behaviour of a C++
float-to-integer conversion. -/
def truncQ (q : ℚ) : ℤ := if q < 0 then ⌈q⌉ else ⌊q⌋

/-- The conversion static_cast<sf::Uint8>(f) applied to a float value,
modelled as truncation toward zero followed by reduction into 8 bits. -/
def toUint8 (q : ℚ) : Fin 256 :=
  ⟨(truncQ q).toNat % 256, Nat.mod_lt _ (by norm_num)⟩

/-- One channel of the gradient row color: the source expression
static_cast<sf::Uint8>(s + t * (e - s)) (lines 13-16), with the float
arithmetic modelled on `ℚ`. -/
def interpChannel (s e : Fin 256) (t : ℚ) : Fin 256 :=
  toUint8 ((s.val : ℚ) + t * ((e.val : ℚ) - (s.val : ℚ)))

/-- The color stored at pixel (x, y) by the loop body (source lines 12-18):
`float t = float(y) / float(height);` then the three channel casts.  The
column index `x` is a parameter of the loop body but the color expression
does not mention it. -/
def pixelColor (height : ℕ) (startC endC : Color) (x : ℕ) (y : ℕ) : Color :=
  let t : ℚ := (y : ℚ) / (height : ℚ)
  { red := interpChannel startC.red endC.red t
    green := interpChannel startC.green endC.green t
    blue := interpChannel startC.blue endC.blue t }

/-- Modelled from the spec: the single error kind of §7; the source's main
has no generate function, only the fixed 600x400 loop. -/
inductive GenError where
  | InvalidDimension
deriving DecidableEq, Repr

/-- Modelled from the spec: the Image entity of §3, a width x height grid
of colors addressed by integer coordinates. -/
structure Image where
  width : ℕ
  height : ℕ
  pixel : ℕ → ℕ → Color

/-- Modelled from the spec: the operation generate(width, height,
startColor, endColor) of §4.1, failing with InvalidDimension when
width <= 0 or height <= 0 (§7) and otherwise populating every pixel with
the source loop's per-pixel color. -/
def generate (width height : ℤ) (startC endC : Color) :
    Except GenError Image :=
  if width ≤ 0 ∨ height ≤ 0 then
    Except.error GenError.InvalidDimension
  else
    Except.ok
      { width := width.toNat
        height := height.toNat
        pixel := fun x y => pixelColor height.toNat startC endC x y }

/-- The gradient start color of the program, sf::Color(24, 18, 43). -/
def mainStart : Color := ⟨24, 18, 43⟩

/-- The gradient end color of the program, sf::Color(255, 56, 100). -/
def mainEnd : Color := ⟨255, 56, 100⟩

/-- The fixed image height of the program's loops. -/
def mainHeight : ℕ := 400

/-- The fixed image width of the program's loops. -/
def mainWidth : ℕ := 600

/-- The pixel (x, y) of bgImage as populated by main's double loop. -/
def bgPixel (x y : ℕ) : Color := pixelColor mainHeight mainStart mainEnd x y

/-- The observable stages of main, in source order. -/
inductive Step where
  | createWindow
  | buildBackground
  | loadFont
  | createTexts
  | eventLoop
deriving DecidableEq, Repr

/-- Shallow trace of main (source lines 4-64): the window is created, the
background image is built, the font load is attempted; on failure main
returns 1 at once, otherwise the text objects are created, the event loop
runs until the window closes, and main returns 0.  The font load outcome
is the one external input. -/
def mainRun (fontOk : Bool) : List Step × ℤ :=
  if fontOk then
    ([Step.createWindow, Step.buildBackground, Step.loadFont,
      Step.createTexts, Step.eventLoop], 0)
  else
    ([Step.createWindow, Step.buildBackground, Step.loadFont], 1)

/-- Stated from the spec's row formula: the interpolation fraction
t = y / height lies in [0, 1), each channel of the row's pixel is the
truncating 8-bit cast of startColor[c] + t * (endColor[c] - startColor[c]),
and each stored channel lies in [0, 255]. -/
def rowSpec (height x y : ℕ) (A B : Color) : Prop :=
  0 ≤ (y : ℚ) / (height : ℚ) ∧ (y : ℚ) / (height : ℚ) < 1 ∧
  (pixelColor height A B x y).red =
    toUint8 ((A.red.val : ℚ) +
      (y : ℚ) / (height : ℚ) * ((B.red.val : ℚ) - (A.red.val : ℚ))) ∧
  (pixelColor height A B x y).green =
    toUint8 ((A.green.val : ℚ) +
      (y : ℚ) / (height : ℚ) * ((B.green.val : ℚ) - (A.green.val : ℚ))) ∧
  (pixelColor height A B x y).blue =
    toUint8 ((A.blue.val : ℚ) +
      (y : ℚ) / (height : ℚ) * ((B.blue.val : ℚ) - (A.blue.val : ℚ))) ∧
  (pixelColor height A B x y).red.val ≤ 255 ∧
  (pixelColor height A B x y).green.val ≤ 255 ∧
  (pixelColor height A B x y).blue.val ≤ 255

/-- Stated from the claim: on every channel where the end color exceeds the
start color, the pixel at (x, y) stays strictly below the end color, and
when some channel increases the pixel never equals the end color. -/
def neverEndAt (height x y : ℕ) (A B : Color) : Prop :=
  (A.red < B.red → (pixelColor height A B x y).red < B.red) ∧
  (A.green < B.green → (pixelColor height A B x y).green < B.green) ∧
  (A.blue < B.blue → (pixelColor height A B x y).blue < B.blue) ∧
  ((A.red < B.red ∨ A.green < B.green ∨ A.blue < B.blue) →
    pixelColor height A B x y ≠ B)

/-- Stated from the claim: an interpolated channel value with fraction t
stays within the closed interval [a, b], hence within [0, 255], and the
stored 8-bit channel is exactly the floor of the value (no wrap mod 256). -/
def channelInRange (a b : ℕ) (t : ℚ) (stored : Fin 256) : Prop :=
  (a : ℚ) ≤ (a : ℚ) + t * ((b : ℚ) - (a : ℚ)) ∧
  (a : ℚ) + t * ((b : ℚ) - (a : ℚ)) ≤ (b : ℚ) ∧
  0 ≤ (a : ℚ) + t * ((b : ℚ) - (a : ℚ)) ∧
  (a : ℚ) + t * ((b : ℚ) - (a : ℚ)) ≤ 255 ∧
  (stored.val : ℤ) = ⌊(a : ℚ) + t * ((b : ℚ) - (a : ℚ))⌋

/-! ### Helper lemmas -/

/-- Value of a numeric literal in Fin 256. -/
lemma val_ofNat256 (i : ℕ) :
    (no_index (OfNat.ofNat i) : Fin 256).val = i % 256 := rfl

/-- The source's per-pixel color expression does not mention the column
index, so the loop body writes the same color at every x of a row. -/
lemma pixelColor_const_x (height : ℕ) (A B : Color) (x y : ℕ) :
    pixelColor height A B x y = pixelColor height A B 0 y := rfl

/-- On nonnegative rationals, truncation toward zero is the floor. -/
lemma truncQ_of_nonneg {q : ℚ} (h : 0 ≤ q) : truncQ q = ⌊q⌋ := by
  simp [truncQ, not_lt.2 h]

/-- When the value is in [0, 256) the 8-bit reduction is the identity and
the stored channel is the floor of the value. -/
lemma toUint8_val_of_lt {q : ℚ} (h0 : 0 ≤ q) (h256 : q < 256) :
    (toUint8 q).val = (⌊q⌋).toNat := by
  have hfl : ⌊q⌋ < 256 := by
    have := Int.floor_le q
    have : (⌊q⌋ : ℚ) < 256 := lt_of_le_of_lt (Int.floor_le q) h256
    exact_mod_cast this
  have : (⌊q⌋).toNat < 256 := by omega
  simp [toUint8, truncQ_of_nonneg h0, Nat.mod_eq_of_lt this]

/-- The cast sends an exact channel value back to itself. -/
lemma toUint8_coe (n : Fin 256) : toUint8 ((n.val : ℕ) : ℚ) = n := by
  apply Fin.ext
  rw [toUint8_val_of_lt (by positivity) (by exact_mod_cast n.isLt)]
  simp

/-- The cast is monotone on values below 256. -/
lemma toUint8_le_toUint8 {q r : ℚ} (h0 : 0 ≤ q) (hqr : q ≤ r)
    (hr : r < 256) :
    toUint8 q ≤ toUint8 r := by
  rw [Fin.le_def, toUint8_val_of_lt h0 (lt_of_le_of_lt hqr hr),
    toUint8_val_of_lt (le_trans h0 hqr) hr]
  exact Int.toNat_le_toNat (Int.floor_le_floor hqr)

/-- The stored channel of a value strictly below an integer bound stays
strictly below that bound. -/
lemma toUint8_val_lt {q : ℚ} {b : ℕ} (h0 : 0 ≤ q) (hqb : q < (b : ℚ))
    (hb : b ≤ 256) :
    (toUint8 q).val < b := by
  rw [toUint8_val_of_lt h0 (lt_of_lt_of_le hqb (by exact_mod_cast hb))]
  have hlt : ⌊q⌋ < (b : ℤ) := by
    have : (⌊q⌋ : ℚ) < b := lt_of_le_of_lt (Int.floor_le q) hqb
    exact_mod_cast this
  have hnn : 0 ≤ ⌊q⌋ := Int.floor_nonneg.2 h0
  omega

/-- Lower bound of the interpolated channel value. -/
lemma interp_lower {a b : ℕ} {t : ℚ} (h0 : 0 ≤ t) (hab : a ≤ b) :
    (a : ℚ) ≤ (a : ℚ) + t * ((b : ℚ) - (a : ℚ)) := by
  have hd : (0 : ℚ) ≤ (b : ℚ) - (a : ℚ) := by
    have : (a : ℚ) ≤ (b : ℚ) := by exact_mod_cast hab
    linarith
  nlinarith

/-- Upper bound of the interpolated channel value. -/
lemma interp_upper {a b : ℕ} {t : ℚ} (h1 : t < 1) (hab : a ≤ b) :
    (a : ℚ) + t * ((b : ℚ) - (a : ℚ)) ≤ (b : ℚ) := by
  have hd : (0 : ℚ) ≤ (b : ℚ) - (a : ℚ) := by
    have : (a : ℚ) ≤ (b : ℚ) := by exact_mod_cast hab
    linarith
  nlinarith

/-- Strict upper bound when the channel actually increases. -/
lemma interp_lt {a b : ℕ} {t : ℚ} (h1 : t < 1) (hab : a < b) :
    (a : ℚ) + t * ((b : ℚ) - (a : ℚ)) < (b : ℚ) := by
  have hd : (0 : ℚ) < (b : ℚ) - (a : ℚ) := by
    have : (a : ℚ) < (b : ℚ) := by exact_mod_cast hab
    linarith
  nlinarith

/-- The interpolated channel value grows with the fraction. -/
lemma interp_mono {a b : ℕ} {t1 t2 : ℚ} (hab : a ≤ b) (h12 : t1 ≤ t2) :
    (a : ℚ) + t1 * ((b : ℚ) - (a : ℚ)) ≤
      (a : ℚ) + t2 * ((b : ℚ) - (a : ℚ)) := by
  have hd : (0 : ℚ) ≤ (b : ℚ) - (a : ℚ) := by
    have : (a : ℚ) ≤ (b : ℚ) := by exact_mod_cast hab
    linarith
  nlinarith

/-- Bounds of the interpolation fraction y / height. -/
lemma frac_bounds {y height : ℕ} (hy : y < height) :
    0 ≤ (y : ℚ) / (height : ℚ) ∧ (y : ℚ) / (height : ℚ) < 1 := by
  have hh : (0 : ℚ) < (height : ℚ) := by
    exact_mod_cast Nat.pos_of_ne_zero (by omega)
  constructor
  · positivity
  · rw [div_lt_one hh]
    exact_mod_cast hy

/-- Row 0 of the gradient is exactly the start color: the fraction is 0
and each channel casts back to itself. -/
lemma pixelColor_zero (height : ℕ) (A B : Color) (x : ℕ) :
    pixelColor height A B x 0 = A := by
  have h : ∀ s e : Fin 256, interpChannel s e 0 = s := by
    intro s e
    simp only [interpChannel, zero_mul, add_zero]
    exact toUint8_coe s
  apply Color.ext <;> simp [pixelColor, h]

/-- Interpolating a color with itself returns that color at every pixel. -/
lemma pixelColor_self (height : ℕ) (A : Color) (x y : ℕ) :
    pixelColor height A A x y = A := by
  have h : ∀ (s : Fin 256) (t : ℚ), interpChannel s s t = s := by
    intro s t
    simp only [interpChannel, sub_self, mul_zero, add_zero]
    exact toUint8_coe s
  apply Color.ext <;> simp [pixelColor, h]

/-- A channel that strictly increases never reaches its end value: the
interpolated value stays strictly below it, and so does its floor. -/
lemma interpChannel_lt_end {s e : Fin 256} {t : ℚ} (h0 : 0 ≤ t)
    (h1 : t < 1) (hse : s < e) :
    interpChannel s e t < e := by
  have hab : s.val < e.val := hse
  rw [Fin.lt_def]
  show (toUint8 ((s.val : ℚ) + t * ((e.val : ℚ) - (s.val : ℚ)))).val < e.val
  apply toUint8_val_lt
  · exact le_trans (by positivity) (interp_lower h0 (le_of_lt hab))
  · exact interp_lt h1 hab
  · exact le_of_lt e.isLt

/-- The interpolated channel satisfies the closed-interval and floor
properties whenever the fraction lies in [0, 1). -/
lemma channelInRange_interpChannel (s e : Fin 256) (a b : ℕ)
    (hsa : s.val = a) (heb : e.val = b) (hab : a ≤ b) (hb : b ≤ 255)
    {t : ℚ} (h0 : 0 ≤ t) (h1 : t < 1) :
    channelInRange a b t (interpChannel s e t) := by
  subst hsa
  subst heb
  have hlow := interp_lower (a := s.val) (b := e.val) h0 hab
  have hup := interp_upper (a := s.val) (b := e.val) h1 hab
  have hnn : (0 : ℚ) ≤ (s.val : ℚ) + t * ((e.val : ℚ) - (s.val : ℚ)) :=
    le_trans (by positivity) hlow
  have h255 : (s.val : ℚ) + t * ((e.val : ℚ) - (s.val : ℚ)) ≤ 255 := by
    refine le_trans hup ?_
    exact_mod_cast hb
  refine ⟨hlow, hup, hnn, h255, ?_⟩
  show ((toUint8 ((s.val : ℚ) + t * ((e.val : ℚ) - (s.val : ℚ)))).val : ℤ) = _
  rw [toUint8_val_of_lt hnn (lt_of_le_of_lt h255 (by norm_num))]
  exact Int.toNat_of_nonneg (Int.floor_nonneg.2 hnn)

/-! ### Claim theorems -/

/-- C1: generate(width, height, startColor, endColor) fails with
InvalidDimension exactly when width <= 0 or height <= 0 and never raises
any error otherwise; in particular generate(0, 10, A, B) and
generate(10, 0, A, B) both fail with InvalidDimension for all colors. -/
theorem C1_invalid_dimension :
    ∀ (w h : ℤ) (A B : Color),
      (generate w h A B = Except.error GenError.InvalidDimension ↔
        w ≤ 0 ∨ h ≤ 0) ∧
      ((∃ img, generate w h A B = Except.ok img) ↔ ¬(w ≤ 0 ∨ h ≤ 0)) ∧
      generate 0 10 A B = Except.error GenError.InvalidDimension ∧
      generate 10 0 A B = Except.error GenError.InvalidDimension := by
  intro w h A B
  refine ⟨?_, ?_, by norm_num [generate], by norm_num [generate]⟩
  · by_cases hc : w ≤ 0 ∨ h ≤ 0 <;> simp [generate, hc]
  · by_cases hc : w ≤ 0 ∨ h ≤ 0 <;> simp [generate, hc]

/-- C2: for every valid input and row y, the fraction t = y / height lies
in [0, 1) and never equals 1, and each pixel channel of row y is the
truncating 8-bit cast of startColor[c] + t * (endColor[c] - startColor[c]),
within [0, 255]. -/
theorem C2_row_formula (height x y : ℕ) (A B : Color)
    (h0 : 0 < height) (hy : y < height) :
    rowSpec height x y A B := by
  obtain ⟨ht0, ht1⟩ := frac_bounds hy
  exact ⟨ht0, ht1, rfl, rfl, rfl,
    Nat.le_of_lt_succ (pixelColor height A B x y).red.isLt,
    Nat.le_of_lt_succ (pixelColor height A B x y).green.isLt,
    Nat.le_of_lt_succ (pixelColor height A B x y).blue.isLt⟩

/-- Witness for C2 at height 2, row 1. -/
theorem C2_row_formula_witness : rowSpec 2 0 1 mainStart mainEnd :=
  C2_row_formula 2 0 1 mainStart mainEnd (by norm_num) (by norm_num)

/-- C3: generate(2, 2, (24,18,43), (255,56,100)) yields a 2x2 image whose
row 0 pixels both equal (24,18,43) and whose row 1 pixels both equal
(139,37,71). -/
theorem C3_concrete_two_by_two :
    ∃ img, generate 2 2 ⟨24, 18, 43⟩ ⟨255, 56, 100⟩ = Except.ok img ∧
      img.width = 2 ∧ img.height = 2 ∧
      img.pixel 0 0 = ⟨24, 18, 43⟩ ∧ img.pixel 1 0 = ⟨24, 18, 43⟩ ∧
      img.pixel 0 1 = ⟨139, 37, 71⟩ ∧ img.pixel 1 1 = ⟨139, 37, 71⟩ := by
  have hrow1 : pixelColor 2 ⟨24, 18, 43⟩ ⟨255, 56, 100⟩ 0 1 =
      ⟨139, 37, 71⟩ := by
    simp only [pixelColor, interpChannel, toUint8, truncQ]
    rw [Color.mk.injEq]
    norm_num [Fin.ext_iff, val_ofNat256]
    decide
  refine ⟨_, rfl, rfl, rfl, pixelColor_zero 2 _ _ 0, pixelColor_zero 2 _ _ 1,
    hrow1, ?_⟩
  show pixelColor 2 ⟨24, 18, 43⟩ ⟨255, 56, 100⟩ 1 1 = ⟨139, 37, 71⟩
  rw [pixelColor_const_x]
  exact hrow1

/-- C4: the pixel color is a function of the row alone: for every height,
colors, and row y, any two columns receive the identical color. -/
theorem C4_row_uniform :
    ∀ (height x1 x2 y : ℕ) (A B : Color),
      pixelColor height A B x1 y = pixelColor height A B x2 y := by
  intro height x1 x2 y A B
  exact (pixelColor_const_x height A B x1 y).trans
    (pixelColor_const_x height A B x2 y).symm

/-- C5: for every valid input, every pixel of row 0 equals the start color
exactly, because the fraction is 0 at y = 0. -/
theorem C5_row_zero_is_start (w h : ℤ) (A B : Color)
    (hw : 0 < w) (hh : 0 < h) :
    ∃ img, generate w h A B = Except.ok img ∧ ∀ x, img.pixel x 0 = A := by
  have hc : ¬(w ≤ 0 ∨ h ≤ 0) := by push_neg; exact ⟨hw, hh⟩
  refine ⟨{ width := w.toNat, height := h.toNat,
            pixel := fun x y => pixelColor h.toNat A B x y }, ?_, ?_⟩
  · unfold generate
    rw [if_neg hc]
  · intro x
    exact pixelColor_zero h.toNat A B x

/-- Witness for C5 at the program's own dimensions and colors. -/
theorem C5_row_zero_witness :
    ∃ img, generate 600 400 mainStart mainEnd = Except.ok img ∧
      ∀ x, img.pixel x 0 = mainStart :=
  C5_row_zero_is_start 600 400 mainStart mainEnd (by norm_num) (by norm_num)

/-- C6: generating a gradient from a color to itself fills every pixel of
the image with that color. -/
theorem C6_degenerate_gradient (w h : ℤ) (A : Color)
    (hw : 0 < w) (hh : 0 < h) :
    ∃ img, generate w h A A = Except.ok img ∧
      ∀ x y, img.pixel x y = A := by
  have hc : ¬(w ≤ 0 ∨ h ≤ 0) := by push_neg; exact ⟨hw, hh⟩
  refine ⟨{ width := w.toNat, height := h.toNat,
            pixel := fun x y => pixelColor h.toNat A A x y }, ?_, ?_⟩
  · unfold generate
    rw [if_neg hc]
  · intro x y
    exact pixelColor_self h.toNat A x y

/-- Witness for C6 at the program's dimensions and start color. -/
theorem C6_degenerate_witness :
    ∃ img, generate 600 400 mainStart mainStart = Except.ok img ∧
      ∀ x y, img.pixel x y = mainStart :=
  C6_degenerate_gradient 600 400 mainStart (by norm_num) (by norm_num)

/-- C7: when the red channel increases from start to end and the other
channels agree, the red channel of the generated rows is non-decreasing in
the row index. -/
theorem C7_red_monotone (height x1 x2 y1 y2 : ℕ) (A B : Color)
    (hred : A.red < B.red) (hgreen : A.green = B.green)
    (hblue : A.blue = B.blue) (h12 : y1 ≤ y2) (hy2 : y2 < height) :
    (pixelColor height A B x1 y1).red ≤ (pixelColor height A B x2 y2).red := by
  have hab : A.red.val < B.red.val := hred
  have hab' : A.red.val ≤ B.red.val := le_of_lt hab
  obtain ⟨ht10, ht11⟩ := frac_bounds (lt_of_le_of_lt h12 hy2)
  obtain ⟨ht20, ht21⟩ := frac_bounds hy2
  have htle : (y1 : ℚ) / (height : ℚ) ≤ (y2 : ℚ) / (height : ℚ) := by
    gcongr
  show toUint8 ((A.red.val : ℚ) +
      (y1 : ℚ) / (height : ℚ) * ((B.red.val : ℚ) - (A.red.val : ℚ))) ≤
    toUint8 ((A.red.val : ℚ) +
      (y2 : ℚ) / (height : ℚ) * ((B.red.val : ℚ) - (A.red.val : ℚ)))
  apply toUint8_le_toUint8
  · exact le_trans (by positivity) (interp_lower ht10 hab')
  · exact interp_mono hab' htle
  · refine lt_of_le_of_lt (interp_upper ht21 hab') ?_
    exact_mod_cast B.red.isLt

/-- Witness for C7: a gradient whose red channel rises from 24 to 255 with
green and blue fixed, rows 0 and 1 of height 2. -/
theorem C7_red_monotone_witness :
    (pixelColor 2 ⟨24, 18, 43⟩ ⟨255, 18, 43⟩ 0 0).red ≤
      (pixelColor 2 ⟨24, 18, 43⟩ ⟨255, 18, 43⟩ 1 1).red :=
  C7_red_monotone 2 0 1 0 1 ⟨24, 18, 43⟩ ⟨255, 18, 43⟩ (by decide) rfl rfl
    (by norm_num) (by norm_num)

/-- C8: when the font load fails, main returns 1 at once, without
creating the text objects or entering the event loop; the nonzero exit
happens only on that path. -/
theorem C8_font_failure_early_return :
    (mainRun false).2 = 1 ∧
    (mainRun false).1 =
      [Step.createWindow, Step.buildBackground, Step.loadFont] ∧
    Step.createTexts ∉ (mainRun false).1 ∧
    Step.eventLoop ∉ (mainRun false).1 ∧
    (mainRun true).2 = 0 ∧
    (∀ b : Bool, (mainRun b).2 ≠ 0 ↔ b = false) := by decide

/-- C9: every strictly increasing channel stays strictly below its end
value on every row, so the end color is never produced when some channel
increases; concretely the program's bottom row is (254, 55, 99), not the
end color (255, 56, 100). -/
theorem C9_end_color_unreached (height x y : ℕ) (A B : Color)
    (h0 : 0 < height) (hy : y < height) :
    neverEndAt height x y A B ∧
    bgPixel x 399 = ⟨254, 55, 99⟩ ∧
    (⟨254, 55, 99⟩ : Color) ≠ mainEnd := by
  obtain ⟨ht0, ht1⟩ := frac_bounds hy
  have hred : A.red < B.red → (pixelColor height A B x y).red < B.red :=
    fun h => interpChannel_lt_end ht0 ht1 h
  have hgreen : A.green < B.green →
      (pixelColor height A B x y).green < B.green :=
    fun h => interpChannel_lt_end ht0 ht1 h
  have hblue : A.blue < B.blue →
      (pixelColor height A B x y).blue < B.blue :=
    fun h => interpChannel_lt_end ht0 ht1 h
  have hne : (A.red < B.red ∨ A.green < B.green ∨ A.blue < B.blue) →
      pixelColor height A B x y ≠ B := by
    intro hd heq
    rcases hd with h | h | h
    · have := hred h
      rw [heq] at this
      exact lt_irrefl _ this
    · have := hgreen h
      rw [heq] at this
      exact lt_irrefl _ this
    · have := hblue h
      rw [heq] at this
      exact lt_irrefl _ this
  have h399 : bgPixel x 399 = ⟨254, 55, 99⟩ := by
    simp only [bgPixel, pixelColor, interpChannel, toUint8, truncQ,
      mainStart, mainEnd, mainHeight]
    rw [Color.mk.injEq]
    norm_num [Fin.ext_iff, val_ofNat256]
    decide
  exact ⟨⟨hred, hgreen, hblue, hne⟩, h399, by decide⟩

/-- Witness for C9 at the bottom row of the program's own gradient. -/
theorem C9_end_color_unreached_witness :
    neverEndAt 400 0 399 mainStart mainEnd ∧
    bgPixel 0 399 = ⟨254, 55, 99⟩ ∧
    (⟨254, 55, 99⟩ : Color) ≠ mainEnd :=
  C9_end_color_unreached 400 0 399 mainStart mainEnd (by norm_num)
    (by norm_num)

/-- C10: for every row of the program's 400-row gradient, each
interpolated channel value lies in the closed interval between its start
and end values, hence in [0, 255], so the truncating cast never wraps
modulo 256 and each stored channel is the floor of the value. -/
theorem C10_channels_in_range (x y : ℕ) (hy : y < mainHeight) :
    channelInRange 24 255 ((y : ℚ) / (mainHeight : ℚ)) (bgPixel x y).red ∧
    channelInRange 18 56 ((y : ℚ) / (mainHeight : ℚ)) (bgPixel x y).green ∧
    channelInRange 43 100 ((y : ℚ) / (mainHeight : ℚ)) (bgPixel x y).blue := by
  obtain ⟨ht0, ht1⟩ := frac_bounds hy
  refine ⟨?_, ?_, ?_⟩
  · exact channelInRange_interpChannel mainStart.red mainEnd.red 24 255
      rfl rfl (by norm_num) (by norm_num) ht0 ht1
  · exact channelInRange_interpChannel mainStart.green mainEnd.green 18 56
      rfl rfl (by norm_num) (by norm_num) ht0 ht1
  · exact channelInRange_interpChannel mainStart.blue mainEnd.blue 43 100
      rfl rfl (by norm_num) (by norm_num) ht0 ht1

/-- Witness for C10 at the bottom row. -/
theorem C10_channels_in_range_witness :
    channelInRange 24 255 (((399 : ℕ) : ℚ) / (mainHeight : ℚ))
      (bgPixel 0 399).red ∧
    channelInRange 18 56 (((399 : ℕ) : ℚ) / (mainHeight : ℚ))
      (bgPixel 0 399).green ∧
    channelInRange 43 100 (((399 : ℕ) : ℚ) / (mainHeight : ℚ))
      (bgPixel 0 399).blue :=
  C10_channels_in_range 0 399 (by norm_num [mainHeight])
